import Mathlib

/-!
# Verification of the blog platform's comment-tree builder and filter synchronizer

Shallow embedding of the two logic cores of the repository:

* `organizeComments` from `src/components/CommentSection.tsx` — reconstruction of a
  nested reply forest from a flat list of comment records;
* `applyFilters` / `handlePageChange` / the two `handleCategoryToggle` variants from
  the blog-list view (`BlogList.tsx`) and the keyword-search view (`BlogDetail.tsx`).

The JavaScript `Map` used by `organizeComments` holds exactly one node object per
comment id (`Map.set` overwrites, and the second pass never calls `set`), so object
references into that map are faithfully represented by the node's id string.  The
map itself is represented as an association list onto which `set` conses a fresh
entry: a lookup that takes the first matching entry then realizes the
last-set-wins semantics of `Map.set`/`Map.get`.  A second, address-based heap
embedding (`organizeCommentsH` below) additionally exposes object identity so that
the no-mutation (frame) property of the builder can be stated.
-/

namespace BlogApp

/-- The scalar fields of a `Comment` record (`src/types`, `interface Comment`):
`id`, `content`, `blogId`, `authorId`, the optional `parentId`, and a timestamp.
The derived `replies` field is not part of the input data; the tree builder
initializes it itself (`{ ...comment, replies: [] }`). -/
structure CommentData where
  id : String
  content : String
  blogId : String
  authorId : String
  parentId : Option String
  createdAt : Int
deriving DecidableEq, Repr

/-- A node held in the builder's `commentMap`: the copied comment record together
with its `replies` array.  Since the map stores one object per id, the object
references held by `replies` (and by `rootComments`) are recorded as id strings. -/
structure CommentNode where
  data : CommentData
  replies : List String
deriving DecidableEq, Repr

/-- The `commentMap`.  `Map.set` conses a fresh entry at the front; lookups read
the first matching entry, which is the most recently set one. -/
abbrev Store := List (String × CommentNode)

/-- `commentMap.get(k)`: the most recently `set` node for key `k`. -/
def lookupStore (s : Store) (k : String) : Option CommentNode :=
  (s.find? (fun e => e.1 = k)).map (fun e => e.2)

/-- First pass of `organizeComments`:
`allComments.forEach(c => commentMap.set(c.id, { ...c, replies: [] }))`. -/
def buildMap (cs : List CommentData) : Store :=
  cs.foldl (fun m c => (c.id, ⟨c, []⟩) :: m) []

/-- The branch condition `if (comment.parentId)` of the second pass is
JavaScript truthiness, not mere presence: a present but empty-string parent id
is falsy and routes the comment to the root branch exactly like an absent
one.  `jsParentId` is the truthy parent reference, `none` otherwise. -/
def jsParentId (c : CommentData) : Option String :=
  match c.parentId with
  | some p => if p = "" then none else some p
  | none => none

/-- `parent.replies.push(child)`: append `cid` to the `replies` of the (unique
live) map entry for `pid`; a missing key leaves the store unchanged.  The source
also re-runs `parent.replies = parent.replies || []` first, which is the identity
here because every node is created with `replies: []`. -/
def pushReply : Store → String → String → Store
  | [], _, _ => []
  | (k, v) :: s, pid, cid =>
      if k = pid then (k, ⟨v.data, v.replies ++ [cid]⟩) :: s
      else (k, v) :: pushReply s pid cid

/-- One iteration of the second pass of `organizeComments`.  The non-null
assertion `commentMap.get(comment.id)!` is modelled by an `Option` failure
(`none`) when the lookup misses; a present `parentId` that is not in the map
takes the silent-drop branch; a parentless comment is appended to
`rootComments`. -/
def organizeStep : Option (Store × List String) → CommentData → Option (Store × List String)
  | none, _ => none
  | some (m, roots), c =>
      match lookupStore m c.id with
      | none => none
      | some _ =>
          match jsParentId c with
          | some pid =>
              match lookupStore m pid with
              | some _ => some (pushReply m pid c.id, roots)
              | none => some (m, roots)
          | none => some (m, roots ++ [c.id])

/-- `organizeComments` from `CommentSection.tsx`: build the id-keyed map of fresh
nodes, then attach every comment to its parent's `replies` (or to the root
sequence).  The value is the final map together with the `rootComments` id
sequence; `none` would mean the non-null assertion threw. -/
def organizeComments (cs : List CommentData) : Option (Store × List String) :=
  cs.foldl organizeStep (some (buildMap cs, []))

/-- Depth-first traversal of one subtree of the output forest, with explicit
recursion fuel (the traversal of the rendered `CommentItem` tree): emit the
node's record, then recursively flatten each reply in order. -/
def dfsFlatten (m : Store) : Nat → String → List CommentData
  | 0, _ => []
  | fuel + 1, i =>
      match lookupStore m i with
      | none => []
      | some node => node.data :: (node.replies.map (dfsFlatten m fuel)).flatten

/-- Depth-first flattening of the whole output forest from the root sequence. -/
def flattenForest (m : Store) (fuel : Nat) (roots : List String) : List CommentData :=
  (roots.map (dfsFlatten m fuel)).flatten

/-- The record (if any) stored for id `i` in the builder's map. -/
def find? (cs : List CommentData) (i : String) : Option CommentData :=
  cs.find? (fun c => c.id = i)

/-- The parent record a comment's `parentId` resolves to within the collection. -/
def parentOf (cs : List CommentData) (c : CommentData) : Option CommentData :=
  (jsParentId c).bind (find? cs)

/-- `j`-fold iteration of `parentOf`: the ancestor of `c` reached after
following `j` parent references inside `cs` (`none` once the chain leaves the
collection or passes a parentless comment). -/
def iterParent (cs : List CommentData) : Nat → CommentData → Option CommentData
  | 0, c => some c
  | j + 1, c => (parentOf cs c).bind (iterParent cs j)

/-- The ids of the direct children of id `k`, in input order. -/
def childIds (cs : List CommentData) (k : String) : List String :=
  (cs.filter (fun c => jsParentId c = some k)).map (fun c => c.id)

/-- The ids of the parentless (root) comments, in input order. -/
def rootIds (cs : List CommentData) : List String :=
  (cs.filter (fun c => jsParentId c = none)).map (fun c => c.id)

/-- The effect of one second-pass iteration on the map alone: attach `c` under
its parent when it has one (`pushReply` is the identity when the parent id is
not a key, which is exactly the silent-drop branch). -/
def attachStep (m : Store) (c : CommentData) : Store :=
  match jsParentId c with
  | none => m
  | some pid => pushReply m pid c.id

/-- The map after the whole second pass. -/
def pass2Store (m : Store) (cs : List CommentData) : Store :=
  cs.foldl attachStep m

/-- Specification-level depth-first traversal obtained by resolving the final
store: visit the record with id `i`, then its children in input order.  Used
only to reason about `dfsFlatten` on the store `organizeComments` produces. -/
def dfsSpec (cs : List CommentData) : Nat → String → List CommentData
  | 0, _ => []
  | fuel + 1, i =>
      match find? cs i with
      | none => []
      | some c => c :: ((childIds cs i).map (dfsSpec cs fuel)).flatten

/-- The ancestor chain of `x` reaches the comment with id `i` after exactly `j`
parent steps. -/
def reaches (cs : List CommentData) (j : Nat) (x : CommentData) (i : String) : Prop :=
  ∃ y, iterParent cs j x = some y ∧ y.id = i

/-! ## Basic lemmas about the store -/

theorem foldl_cons_eq_reverse_map_append {α β : Type} (f : α → β) :
    ∀ (l : List α) (acc : List β),
      l.foldl (fun m c => f c :: m) acc = (l.map f).reverse ++ acc := by
  intro l
  induction l with
  | nil => intro acc; rfl
  | cons c l ih =>
      intro acc
      simp only [List.foldl_cons, List.map_cons, List.reverse_cons, List.append_assoc]
      rw [ih]
      simp

theorem buildMap_eq (cs : List CommentData) :
    buildMap cs = (cs.map (fun c => (c.id, (⟨c, []⟩ : CommentNode)))).reverse := by
  unfold buildMap
  rw [foldl_cons_eq_reverse_map_append]
  simp

theorem unique_of_nodup_ids {cs : List CommentData}
    (hnd : (cs.map (fun c => c.id)).Nodup) {a b : CommentData}
    (ha : a ∈ cs) (hb : b ∈ cs) (hab : a.id = b.id) : a = b := by
  induction cs with
  | nil => cases ha
  | cons c cs ih =>
      simp only [List.map_cons, List.nodup_cons] at hnd
      rcases List.mem_cons.mp ha with rfl | ha' <;>
        rcases List.mem_cons.mp hb with rfl | hb'
      · rfl
      · exact absurd (hab ▸ List.mem_map_of_mem (fun c => c.id) hb') hnd.1
      · exact absurd (hab ▸ List.mem_map_of_mem (fun c => c.id) ha') hnd.1
      · exact ih hnd.2 ha' hb'

theorem find?_eq_some_of_nodup {cs : List CommentData}
    (hnd : (cs.map (fun c => c.id)).Nodup) {c : CommentData} {i : String} :
    find? cs i = some c ↔ c ∈ cs ∧ c.id = i := by
  constructor
  · intro h
    refine ⟨List.mem_of_find?_eq_some h, ?_⟩
    have := List.find?_some h
    simpa using this
  · rintro ⟨hc, rfl⟩
    have hs : (cs.find? (fun d => d.id = c.id)).isSome := by
      rw [List.find?_isSome]
      exact ⟨c, hc, by simp⟩
    rcases Option.isSome_iff_exists.mp hs with ⟨d, hd⟩
    have hdc : d ∈ cs := List.mem_of_find?_eq_some hd
    have hdi : d.id = c.id := by simpa using List.find?_some hd
    have : d = c := unique_of_nodup_ids hnd hdc hc hdi
    simpa [find?, this] using hd

theorem find?_isSome_iff {cs : List CommentData} {i : String} :
    (find? cs i).isSome ↔ i ∈ cs.map (fun c => c.id) := by
  unfold find?
  rw [List.find?_isSome]
  constructor
  · rintro ⟨c, hc, hid⟩
    exact List.mem_map.mpr ⟨c, hc, by simpa using hid⟩
  · intro h
    rcases List.mem_map.mp h with ⟨c, hc, rfl⟩
    exact ⟨c, hc, by simp⟩

theorem lookupStore_buildMap_isSome (cs : List CommentData) (k : String) :
    (lookupStore (buildMap cs) k).isSome ↔ k ∈ cs.map (fun c => c.id) := by
  rw [buildMap_eq]
  unfold lookupStore
  rw [Option.isSome_map', List.find?_isSome]
  constructor
  · rintro ⟨e, he, hk⟩
    rw [List.mem_reverse, List.mem_map] at he
    rcases he with ⟨c, hc, rfl⟩
    exact List.mem_map.mpr ⟨c, hc, by simpa using hk⟩
  · intro h
    rcases List.mem_map.mp h with ⟨c, hc, rfl⟩
    exact ⟨(c.id, ⟨c, []⟩), List.mem_reverse.mpr (List.mem_map_of_mem _ hc), by simp⟩

theorem lookupStore_buildMap_of_nodup {cs : List CommentData}
    (hnd : (cs.map (fun c => c.id)).Nodup) (k : String) :
    lookupStore (buildMap cs) k = (find? cs k).map (fun c => (⟨c, []⟩ : CommentNode)) := by
  cases hf : find? cs k with
  | none =>
      have : ¬ k ∈ cs.map (fun c => c.id) := by
        rw [← find?_isSome_iff, hf]
        simp
      have h2 := (lookupStore_buildMap_isSome cs k).not.mpr this
      simpa using Option.not_isSome_iff_eq_none.mp h2
  | some c =>
      rcases (find?_eq_some_of_nodup hnd).mp hf with ⟨hc, hid⟩
      rw [buildMap_eq]
      unfold lookupStore
      have hs : ((cs.map (fun c => (c.id, (⟨c, []⟩ : CommentNode)))).reverse.find?
          (fun e => e.1 = k)).isSome := by
        rw [List.find?_isSome]
        exact ⟨(c.id, ⟨c, []⟩), List.mem_reverse.mpr (List.mem_map_of_mem _ hc), by simp [hid]⟩
      rcases Option.isSome_iff_exists.mp hs with ⟨e, he⟩
      have hek : e.1 = k := by simpa using List.find?_some he
      have hem : e ∈ (cs.map (fun c => (c.id, (⟨c, []⟩ : CommentNode)))).reverse :=
        List.mem_of_find?_eq_some he
      rw [List.mem_reverse, List.mem_map] at hem
      rcases hem with ⟨d, hd, rfl⟩
      have : d = c := unique_of_nodup_ids hnd hd hc (by simpa [hid] using hek)
      rw [he, this]
      simp

theorem lookupStore_nil (k : String) : lookupStore [] k = none := rfl

theorem lookupStore_cons (k' : String) (v : CommentNode) (s : Store) (k : String) :
    lookupStore ((k', v) :: s) k = if k' = k then some v else lookupStore s k := by
  unfold lookupStore
  rw [List.find?_cons]
  by_cases h : k' = k
  · simp [h]
  · simp [h]

theorem lookupStore_pushReply (m : Store) (pid cid k : String) :
    lookupStore (pushReply m pid cid) k =
      if k = pid then
        (lookupStore m k).map (fun n => ⟨n.data, n.replies ++ [cid]⟩)
      else lookupStore m k := by
  induction m with
  | nil =>
      by_cases hk : k = pid <;> simp [pushReply, lookupStore_nil, hk]
  | cons e m ih =>
      obtain ⟨ek, ev⟩ := e
      by_cases hek : ek = pid
      · subst hek
        have hpr : pushReply ((ek, ev) :: m) ek cid =
            (ek, ⟨ev.data, ev.replies ++ [cid]⟩) :: m := by
          simp [pushReply]
        rw [hpr]
        simp only [lookupStore_cons]
        by_cases hk : k = ek
        · subst hk
          simp
        · have hk' : ¬ ek = k := fun h => hk h.symm
          simp [hk, hk']
      · have hpr : pushReply ((ek, ev) :: m) pid cid =
            (ek, ev) :: pushReply m pid cid := by
          simp [pushReply, hek]
        rw [hpr]
        simp only [lookupStore_cons]
        by_cases hk : k = ek
        · subst hk
          have hkp : ¬ k = pid := fun h => hek h
          simp [hkp]
        · have hk' : ¬ ek = k := fun h => hk h.symm
          simp [hk', ih]

theorem pushReply_of_lookup_none {m : Store} {pid : String}
    (h : lookupStore m pid = none) (cid : String) : pushReply m pid cid = m := by
  induction m with
  | nil => rfl
  | cons e m ih =>
      obtain ⟨ek, ev⟩ := e
      rw [lookupStore_cons] at h
      by_cases hek : ek = pid
      · rw [if_pos hek] at h
        cases h
      · rw [if_neg hek] at h
        simp [pushReply, hek, ih h]

theorem lookupStore_attachStep_isSome (m : Store) (c : CommentData) (k : String) :
    (lookupStore (attachStep m c) k).isSome = (lookupStore m k).isSome := by
  unfold attachStep
  cases jsParentId c with
  | none => rfl
  | some pid =>
      rw [lookupStore_pushReply]
      by_cases hk : k = pid
      · rw [if_pos hk, Option.isSome_map']
      · rw [if_neg hk]

theorem foldl_organizeStep_eq :
    ∀ (l : List CommentData) (m : Store) (r : List String),
      (∀ c ∈ l, (lookupStore m c.id).isSome) →
      l.foldl organizeStep (some (m, r)) = some (pass2Store m l, r ++ rootIds l) := by
  intro l
  induction l with
  | nil => intro m r _; simp [pass2Store, rootIds]
  | cons c l ih =>
      intro m r hall
      have hc : (lookupStore m c.id).isSome := hall c (List.mem_cons_self c l)
      rcases Option.isSome_iff_exists.mp hc with ⟨node, hnode⟩
      have hall' : ∀ c' ∈ l, (lookupStore (attachStep m c) c'.id).isSome := by
        intro c' hc'
        rw [lookupStore_attachStep_isSome]
        exact hall c' (List.mem_cons_of_mem c hc')
      have hstep : organizeStep (some (m, r)) c =
          some (attachStep m c, r ++ if jsParentId c = none then [c.id] else []) := by
        cases hp : jsParentId c with
        | none => simp [organizeStep, attachStep, hnode, hp]
        | some pid =>
            cases hpl : lookupStore m pid with
            | none =>
                simp [organizeStep, attachStep, hnode, hp, hpl,
                  pushReply_of_lookup_none hpl]
            | some _ => simp [organizeStep, attachStep, hnode, hp, hpl]
      have hroot : rootIds (c :: l) =
          (if jsParentId c = none then [c.id] else []) ++ rootIds l := by
        unfold rootIds
        cases hp : jsParentId c with
        | none => simp [List.filter_cons, hp]
        | some pid => simp [List.filter_cons, hp]
      calc (c :: l).foldl organizeStep (some (m, r))
          = l.foldl organizeStep (organizeStep (some (m, r)) c) := by
            rw [List.foldl_cons]
        _ = l.foldl organizeStep
              (some (attachStep m c, r ++ if jsParentId c = none then [c.id] else [])) := by
            rw [hstep]
        _ = some (pass2Store (attachStep m c) l,
              (r ++ if jsParentId c = none then [c.id] else []) ++ rootIds l) :=
            ih (attachStep m c) _ hall'
        _ = some (pass2Store m (c :: l), r ++ rootIds (c :: l)) := by
            rw [hroot]
            simp [pass2Store, List.append_assoc]

theorem organizeComments_eq (cs : List CommentData) :
    organizeComments cs = some (pass2Store (buildMap cs) cs, rootIds cs) := by
  unfold organizeComments
  rw [foldl_organizeStep_eq cs (buildMap cs) []]
  · simp
  · intro c hc
    rw [lookupStore_buildMap_isSome]
    exact List.mem_map_of_mem _ hc

theorem lookupStore_pass2Store (l : List CommentData) :
    ∀ (m : Store) (k : String),
      lookupStore (pass2Store m l) k =
        (lookupStore m k).map (fun n => ⟨n.data, n.replies ++ childIds l k⟩) := by
  induction l with
  | nil =>
      intro m k
      have hm : pass2Store m [] = m := rfl
      have hch : childIds [] k = [] := rfl
      rw [hm, hch]
      cases h : lookupStore m k <;> simp [h]
  | cons c l ih =>
      intro m k
      have hstep : pass2Store m (c :: l) = pass2Store (attachStep m c) l := rfl
      rw [hstep, ih]
      unfold attachStep
      cases hp : jsParentId c with
      | none =>
          have hch : childIds (c :: l) k = childIds l k := by
            simp [childIds, List.filter_cons, hp]
          rw [hch]
      | some pid =>
          rw [lookupStore_pushReply]
          by_cases hk : k = pid
          · subst hk
            have hch : childIds (c :: l) k = c.id :: childIds l k := by
              simp [childIds, List.filter_cons, hp]
            rw [hch, if_pos rfl]
            cases h : lookupStore m k <;> simp [h]
          · have hpk : ¬ pid = k := fun h => hk h.symm
            have hch : childIds (c :: l) k = childIds l k := by
              simp [childIds, List.filter_cons, hp, hpk]
            rw [hch, if_neg hk]

/-- Final-store characterization: after `organizeComments`, looking up id `k`
yields the (unique, by id-nodup) record with that id, its `replies` holding the
ids of its direct children in input order. -/
theorem lookupStore_final {cs : List CommentData}
    (hnd : (cs.map (fun c => c.id)).Nodup) {m : Store} {roots : List String}
    (h : organizeComments cs = some (m, roots)) (k : String) :
    lookupStore m k = (find? cs k).map (fun c => (⟨c, childIds cs k⟩ : CommentNode)) := by
  rw [organizeComments_eq] at h
  injection h with h'
  have hm : m = pass2Store (buildMap cs) cs := (congrArg Prod.fst h').symm
  rw [hm, lookupStore_pass2Store, lookupStore_buildMap_of_nodup hnd]
  cases find? cs k <;> simp

theorem roots_final {cs : List CommentData} {m : Store} {roots : List String}
    (h : organizeComments cs = some (m, roots)) : roots = rootIds cs := by
  rw [organizeComments_eq] at h
  injection h with h'
  exact (congrArg Prod.snd h').symm

/-! ## Ancestor-chain lemmas -/

theorem iterParent_add (cs : List CommentData) (a b : Nat) (x : CommentData) :
    iterParent cs (a + b) x = (iterParent cs a x).bind (iterParent cs b) := by
  induction a generalizing x with
  | zero => simp [iterParent]
  | succ a ih =>
      rw [Nat.succ_add]
      simp only [iterParent]
      cases parentOf cs x with
      | none => simp
      | some y => simpa using ih y

theorem parentOf_mem {cs : List CommentData} {x p : CommentData}
    (h : parentOf cs x = some p) : p ∈ cs := by
  unfold parentOf at h
  cases hpid : jsParentId x with
  | none => rw [hpid] at h; cases h
  | some pid =>
      rw [hpid] at h
      exact List.mem_of_find?_eq_some h

theorem mem_of_iterParent {cs : List CommentData} :
    ∀ {j : Nat} {x y : CommentData}, x ∈ cs → iterParent cs j x = some y → y ∈ cs := by
  intro j
  induction j with
  | zero =>
      intro x y hx h
      simp only [iterParent, Option.some.injEq] at h
      exact h ▸ hx
  | succ j ih =>
      intro x y hx h
      simp only [iterParent] at h
      cases hp : parentOf cs x with
      | none => rw [hp] at h; cases h
      | some p =>
          rw [hp] at h
          exact ih (parentOf_mem hp) h

theorem iterParent_cycle_isSome {cs : List CommentData} {k : Nat} {c : CommentData}
    (hk : 0 < k) (hc : iterParent cs k c = some c) (m : Nat) :
    (iterParent cs m c).isSome := by
  have hmul : ∀ q, iterParent cs (q * k) c = some c := by
    intro q
    induction q with
    | zero => simp [iterParent]
    | succ q ih =>
        have hq : (q + 1) * k = q * k + k := by ring
        rw [hq, iterParent_add, ih]
        simpa using hc
  have hle : m ≤ (m + 1) * k := by
    calc m ≤ m + 1 := Nat.le_succ m
      _ = (m + 1) * 1 := (Nat.mul_one _).symm
      _ ≤ (m + 1) * k := Nat.mul_le_mul_left _ hk
  obtain ⟨d, hd⟩ := Nat.le.dest hle
  have hsome := hmul (m + 1)
  rw [← hd, iterParent_add] at hsome
  cases h : iterParent cs m c with
  | none => rw [h] at hsome; cases hsome
  | some _ => simp

theorem iterParent_root_none {cs : List CommentData} {y : CommentData}
    (hy : jsParentId y = none) {k : Nat} (hk : 0 < k) : iterParent cs k y = none := by
  cases k with
  | zero => cases hk
  | succ k =>
      simp only [iterParent, parentOf, hy]
      rfl

/-- A comment whose ancestor chain reaches a parentless record (within the
collection) in fewer than `cs.length` steps — the acyclicity condition.
Stated through `Option.map` so that it is decidable on concrete inputs. -/
def terminates (cs : List CommentData) (c : CommentData) : Prop :=
  ∃ j, j < cs.length ∧ (iterParent cs j c).map (fun r => jsParentId r) = some none

instance (cs : List CommentData) (c : CommentData) : Decidable (terminates cs c) := by
  unfold terminates
  infer_instance

theorem terminates_iff {cs : List CommentData} {c : CommentData} :
    terminates cs c ↔
      ∃ j, j < cs.length ∧ ∃ r, iterParent cs j c = some r ∧ jsParentId r = none := by
  unfold terminates
  constructor
  · rintro ⟨j, hj, hmap⟩
    cases hit : iterParent cs j c with
    | none => rw [hit] at hmap; cases hmap
    | some r =>
        rw [hit] at hmap
        exact ⟨j, hj, r, hit, by simpa using hmap⟩
  · rintro ⟨j, hj, r, hr, hroot⟩
    exact ⟨j, hj, by rw [hr]; simpa using hroot⟩

theorem no_cycle_of_terminates {cs : List CommentData} {c : CommentData}
    (hterm : terminates cs c) : ∀ k, 0 < k → iterParent cs k c ≠ some c := by
  rintro k hk hcyc
  obtain ⟨j, _, r, hr, hroot⟩ := terminates_iff.mp hterm
  have hdead : iterParent cs (j + 1) c = none := by
    rw [iterParent_add, hr]
    simp [iterParent_root_none hroot (Nat.succ_pos 0)]
  have hsome := iterParent_cycle_isSome hk hcyc (j + 1)
  rw [hdead] at hsome
  cases hsome

/-! ## Membership in the depth-first flattening -/

theorem mem_dfsSpec_iff {cs : List CommentData}
    (hnd : (cs.map (fun c => c.id)).Nodup) :
    ∀ (fuel : Nat) (i : String) (x : CommentData),
      x ∈ dfsSpec cs fuel i ↔ ∃ j, j < fuel ∧ x ∈ cs ∧ reaches cs j x i := by
  intro fuel
  induction fuel with
  | zero =>
      intro i x
      simp [dfsSpec]
  | succ fuel ih =>
      intro i x
      simp only [dfsSpec]
      cases hf : find? cs i with
      | none =>
          simp only [List.not_mem_nil, false_iff]
          rintro ⟨j, _, hx, y, hy, hyi⟩
          have hy_mem : y ∈ cs := mem_of_iterParent hx hy
          have : (find? cs i).isSome := by
            rw [find?_isSome_iff]
            exact List.mem_map.mpr ⟨y, hy_mem, hyi⟩
          rw [hf] at this
          cases this
      | some c =>
          obtain ⟨hc_mem, hc_id⟩ := (find?_eq_some_of_nodup hnd).mp hf
          rw [List.mem_cons]
          constructor
          · rintro (rfl | hmem)
            · exact ⟨0, Nat.succ_pos _, hc_mem, x, rfl, hc_id⟩
            · obtain ⟨l', hl', hx⟩ := List.mem_flatten.mp hmem
              obtain ⟨ch, hch, rfl⟩ := List.mem_map.mp hl'
              obtain ⟨j, hj, hxcs, y, hy, hyi⟩ := (ih ch x).mp hx
              obtain ⟨d, hd, rfl⟩ := List.mem_map.mp hch
              have hd_mem : d ∈ cs := (List.mem_filter.mp hd).1
              have hd_par : jsParentId d = some i := by
                simpa using (List.mem_filter.mp hd).2
              have hy_mem : y ∈ cs := mem_of_iterParent hxcs hy
              have hyd : y = d := unique_of_nodup_ids hnd hy_mem hd_mem hyi
              subst hyd
              refine ⟨j + 1, Nat.succ_lt_succ hj, hxcs, c, ?_, hc_id⟩
              rw [iterParent_add, hy]
              simp [iterParent, parentOf, hd_par, hf]
          · rintro ⟨j, hj, hx, y, hy, hyi⟩
            cases j with
            | zero =>
                left
                simp only [iterParent, Option.some.injEq] at hy
                subst hy
                exact unique_of_nodup_ids hnd hx hc_mem (hyi.trans hc_id.symm)
            | succ j =>
                right
                rw [iterParent_add cs j 1] at hy
                cases hd : iterParent cs j x with
                | none => rw [hd] at hy; cases hy
                | some d =>
                    rw [hd] at hy
                    simp only [Option.some_bind] at hy
                    have hpd : parentOf cs d = some y := by
                      cases hp : parentOf cs d with
                      | none => simp [iterParent, hp] at hy
                      | some z =>
                          simp only [iterParent, hp, Option.some_bind] at hy
                          simpa [iterParent] using hy
                    have hd_mem : d ∈ cs := mem_of_iterParent hx hd
                    have hd_par : jsParentId d = some i := by
                      unfold parentOf at hpd
                      cases hpid : jsParentId d with
                      | none => rw [hpid] at hpd; cases hpd
                      | some pid =>
                          rw [hpid] at hpd
                          have : y.id = pid := by simpa using List.find?_some hpd
                          rw [← hyi, this]
                    have hch : d.id ∈ childIds cs i :=
                      List.mem_map.mpr ⟨d, List.mem_filter.mpr ⟨hd_mem, by simp [hd_par]⟩, rfl⟩
                    refine List.mem_flatten.mpr ⟨dfsSpec cs fuel d.id,
                      List.mem_map.mpr ⟨d.id, hch, rfl⟩, ?_⟩
                    exact (ih d.id x).mpr ⟨j, Nat.lt_of_succ_lt_succ hj, hx, d, hd, rfl⟩

/-! ## Distinctness of the flattening -/

theorem iterParent_sub {cs : List CommentData} {j₁ j₂ : Nat} {x a b : CommentData}
    (hle : j₁ ≤ j₂) (h₁ : iterParent cs j₁ x = some a) (h₂ : iterParent cs j₂ x = some b) :
    iterParent cs (j₂ - j₁) a = some b := by
  obtain ⟨d, hd⟩ := Nat.le.dest hle
  have : iterParent cs (j₁ + d) x = (iterParent cs j₁ x).bind (iterParent cs d) :=
    iterParent_add cs j₁ d x
  rw [hd, h₂, h₁] at this
  have hdd : j₂ - j₁ = d := by omega
  rw [hdd]
  simpa using this.symm

theorem sibling_chain_eq {cs : List CommentData} {d₁ d₂ c : CommentData}
    (hnc : ∀ k, 0 < k → iterParent cs k c ≠ some c)
    (h₁ : parentOf cs d₁ = some c) (h₂ : parentOf cs d₂ = some c)
    {t : Nat} (ht : iterParent cs t d₁ = some d₂) : d₁ = d₂ := by
  cases t with
  | zero => simpa [iterParent] using ht
  | succ t =>
      exfalso
      have hstep : iterParent cs (t + 1) d₁ = iterParent cs t c := by
        rw [Nat.add_comm t 1, iterParent_add]
        simp [iterParent, h₁]
      have htc : iterParent cs t c = some d₂ := by rw [← hstep]; exact ht
      have hcyc : iterParent cs (t + 1) c = some c := by
        rw [iterParent_add, htc]
        simp [iterParent, h₂]
      exact hnc (t + 1) (Nat.succ_pos t) hcyc

theorem root_chain_eq {cs : List CommentData} {p₁ p₂ : CommentData}
    (h₁ : jsParentId p₁ = none) {t : Nat} (ht : iterParent cs t p₁ = some p₂) : p₁ = p₂ := by
  cases t with
  | zero => simpa [iterParent] using ht
  | succ t =>
      rw [iterParent_root_none h₁ (Nat.succ_pos t)] at ht
      cases ht

theorem childIds_nodup {cs : List CommentData}
    (hnd : (cs.map (fun c => c.id)).Nodup) (i : String) : (childIds cs i).Nodup := by
  have hsub : List.Sublist
      ((cs.filter (fun c => jsParentId c = some i)).map (fun c => c.id))
      (cs.map (fun c => c.id)) :=
    (List.filter_sublist cs).map _
  exact hnd.sublist hsub

theorem rootIds_nodup {cs : List CommentData}
    (hnd : (cs.map (fun c => c.id)).Nodup) : (rootIds cs).Nodup := by
  have hsub : List.Sublist
      ((cs.filter (fun c => jsParentId c = none)).map (fun c => c.id))
      (cs.map (fun c => c.id)) :=
    (List.filter_sublist cs).map _
  exact hnd.sublist hsub

theorem mem_childIds {cs : List CommentData} {i ch : String} :
    ch ∈ childIds cs i ↔ ∃ d ∈ cs, jsParentId d = some i ∧ d.id = ch := by
  unfold childIds
  constructor
  · intro h
    obtain ⟨d, hd, rfl⟩ := List.mem_map.mp h
    exact ⟨d, (List.mem_filter.mp hd).1, by simpa using (List.mem_filter.mp hd).2, rfl⟩
  · rintro ⟨d, hd, hp, rfl⟩
    exact List.mem_map.mpr ⟨d, List.mem_filter.mpr ⟨hd, by simp [hp]⟩, rfl⟩

theorem mem_rootIds {cs : List CommentData} {r : String} :
    r ∈ rootIds cs ↔ ∃ p ∈ cs, jsParentId p = none ∧ p.id = r := by
  unfold rootIds
  constructor
  · intro h
    obtain ⟨p, hp, rfl⟩ := List.mem_map.mp h
    exact ⟨p, (List.mem_filter.mp hp).1, by simpa using (List.mem_filter.mp hp).2, rfl⟩
  · rintro ⟨p, hp, hpar, rfl⟩
    exact List.mem_map.mpr ⟨p, List.mem_filter.mpr ⟨hp, by simp [hpar]⟩, rfl⟩

theorem dfsSpec_child_eq {cs : List CommentData}
    (hnd : (cs.map (fun c => c.id)).Nodup)
    (hnc_all : ∀ c ∈ cs, ∀ k, 0 < k → iterParent cs k c ≠ some c)
    {i : String} {c : CommentData} (hf : find? cs i = some c) {ch₁ ch₂ : String}
    (h₁ : ch₁ ∈ childIds cs i) (h₂ : ch₂ ∈ childIds cs i) {fuel : Nat} {x : CommentData}
    (hx₁ : x ∈ dfsSpec cs fuel ch₁) (hx₂ : x ∈ dfsSpec cs fuel ch₂) : ch₁ = ch₂ := by
  obtain ⟨d₁, hd₁, hp₁, hch₁⟩ := mem_childIds.mp h₁
  obtain ⟨d₂, hd₂, hp₂, hch₂⟩ := mem_childIds.mp h₂
  obtain ⟨j₁, _, hxcs, y₁, hy₁, hyi₁⟩ := (mem_dfsSpec_iff hnd fuel ch₁ x).mp hx₁
  obtain ⟨j₂, _, _, y₂, hy₂, hyi₂⟩ := (mem_dfsSpec_iff hnd fuel ch₂ x).mp hx₂
  have hy₁d : y₁ = d₁ :=
    unique_of_nodup_ids hnd (mem_of_iterParent hxcs hy₁) hd₁ (hyi₁.trans hch₁.symm)
  have hy₂d : y₂ = d₂ :=
    unique_of_nodup_ids hnd (mem_of_iterParent hxcs hy₂) hd₂ (hyi₂.trans hch₂.symm)
  subst hy₁d
  subst hy₂d
  have hpo₁ : parentOf cs y₁ = some c := by simp [parentOf, hp₁, hf]
  have hpo₂ : parentOf cs y₂ = some c := by simp [parentOf, hp₂, hf]
  have hc_mem : c ∈ cs := List.mem_of_find?_eq_some hf
  have hnc := hnc_all c hc_mem
  rcases Nat.le_total j₁ j₂ with hle | hle
  · have := iterParent_sub hle hy₁ hy₂
    have heq : y₁ = y₂ := sibling_chain_eq hnc hpo₁ hpo₂ this
    rw [← hch₁, ← hch₂, heq]
  · have := iterParent_sub hle hy₂ hy₁
    have heq : y₂ = y₁ := sibling_chain_eq hnc hpo₂ hpo₁ this
    rw [← hch₁, ← hch₂, heq]

theorem dfsSpec_root_eq {cs : List CommentData}
    (hnd : (cs.map (fun c => c.id)).Nodup) {r₁ r₂ : String}
    (h₁ : r₁ ∈ rootIds cs) (h₂ : r₂ ∈ rootIds cs) {fuel : Nat} {x : CommentData}
    (hx₁ : x ∈ dfsSpec cs fuel r₁) (hx₂ : x ∈ dfsSpec cs fuel r₂) : r₁ = r₂ := by
  obtain ⟨p₁, hp₁, hr₁, hid₁⟩ := mem_rootIds.mp h₁
  obtain ⟨p₂, hp₂, hr₂, hid₂⟩ := mem_rootIds.mp h₂
  obtain ⟨j₁, _, hxcs, y₁, hy₁, hyi₁⟩ := (mem_dfsSpec_iff hnd fuel r₁ x).mp hx₁
  obtain ⟨j₂, _, _, y₂, hy₂, hyi₂⟩ := (mem_dfsSpec_iff hnd fuel r₂ x).mp hx₂
  have hy₁p : y₁ = p₁ :=
    unique_of_nodup_ids hnd (mem_of_iterParent hxcs hy₁) hp₁ (hyi₁.trans hid₁.symm)
  have hy₂p : y₂ = p₂ :=
    unique_of_nodup_ids hnd (mem_of_iterParent hxcs hy₂) hp₂ (hyi₂.trans hid₂.symm)
  subst hy₁p
  subst hy₂p
  rcases Nat.le_total j₁ j₂ with hle | hle
  · have := iterParent_sub hle hy₁ hy₂
    have heq : y₁ = y₂ := root_chain_eq hr₁ this
    rw [← hid₁, ← hid₂, heq]
  · have := iterParent_sub hle hy₂ hy₁
    have heq : y₂ = y₁ := root_chain_eq hr₂ this
    rw [← hid₁, ← hid₂, heq]

theorem dfsSpec_nodup {cs : List CommentData}
    (hnd : (cs.map (fun c => c.id)).Nodup)
    (hnc_all : ∀ c ∈ cs, ∀ k, 0 < k → iterParent cs k c ≠ some c) :
    ∀ (fuel : Nat) (i : String), (dfsSpec cs fuel i).Nodup := by
  intro fuel
  induction fuel with
  | zero => intro i; simp [dfsSpec]
  | succ fuel ih =>
      intro i
      simp only [dfsSpec]
      cases hf : find? cs i with
      | none => simp
      | some c =>
          rw [List.nodup_cons]
          constructor
          · intro hmem
            obtain ⟨l', hl', hx⟩ := List.mem_flatten.mp hmem
            obtain ⟨ch, hch, rfl⟩ := List.mem_map.mp hl'
            obtain ⟨j, _, hccs, y, hy, hyi⟩ := (mem_dfsSpec_iff hnd fuel ch c).mp hx
            obtain ⟨d, hd, hp, hdch⟩ := mem_childIds.mp hch
            have hyd : y = d :=
              unique_of_nodup_ids hnd (mem_of_iterParent hccs hy) hd (hyi.trans hdch.symm)
            subst hyd
            have hcyc : iterParent cs (j + 1) c = some c := by
              rw [iterParent_add, hy]
              simp [iterParent, parentOf, hp, hf]
            exact hnc_all c hccs (j + 1) (Nat.succ_pos j) hcyc
          · rw [List.nodup_flatten]
            constructor
            · intro l' hl'
              obtain ⟨ch, _, rfl⟩ := List.mem_map.mp hl'
              exact ih ch
            · rw [List.pairwise_map]
              refine List.Pairwise.imp_of_mem ?_ (childIds_nodup hnd i)
              intro ch₁ ch₂ hm₁ hm₂ hne
              intro x hx₁ hx₂
              exact hne (dfsSpec_child_eq hnd hnc_all hf hm₁ hm₂ hx₁ hx₂)

/-! ## From the concrete store traversal to the specification traversal -/

theorem dfsFlatten_eq_dfsSpec {cs : List CommentData}
    (hnd : (cs.map (fun c => c.id)).Nodup) {m : Store} {roots : List String}
    (h : organizeComments cs = some (m, roots)) :
    ∀ (fuel : Nat) (i : String), dfsFlatten m fuel i = dfsSpec cs fuel i := by
  intro fuel
  induction fuel with
  | zero => intro i; rfl
  | succ fuel ih =>
      intro i
      simp only [dfsFlatten, dfsSpec, lookupStore_final hnd h]
      cases hf : find? cs i with
      | none => rfl
      | some c =>
          show c :: (List.map (dfsFlatten m fuel) (childIds cs i)).flatten =
            c :: (List.map (dfsSpec cs fuel) (childIds cs i)).flatten
          congr 1
          congr 1
          exact List.map_congr_left (fun a _ => ih a)

theorem flattenForest_final_eq {cs : List CommentData}
    (hnd : (cs.map (fun c => c.id)).Nodup) {m : Store} {roots : List String}
    (h : organizeComments cs = some (m, roots)) (fuel : Nat) :
    flattenForest m fuel roots = ((rootIds cs).map (dfsSpec cs fuel)).flatten := by
  unfold flattenForest
  rw [roots_final h]
  congr 1
  exact List.map_congr_left (fun a _ => dfsFlatten_eq_dfsSpec hnd h fuel a)

/-! ## Claim theorems for the comment tree builder -/

/-- C9: `organizeComments` is a total function that never throws: the first pass
inserts a map entry for every input comment's id, so the non-null lookup
`commentMap.get(comment.id)!` always succeeds, and an unresolvable `parentId`
takes the silent-omission branch; hence the `Option`-modelled run always
returns a value, for every input collection. -/
theorem organizeComments_total (cs : List CommentData) : (organizeComments cs).isSome := by
  rw [organizeComments_eq]
  rfl

/-- C1, amended: for input collections with pairwise-distinct ids in which every
present `parentId` resolves to some comment of the collection and every
ancestor chain terminates at a parentless comment (no parent-reference
cycles), the depth-first flattening of the forest produced by
`organizeComments` is a permutation of the input: it has exactly `n` records
and contains each input comment exactly once. -/
theorem organizeComments_forest_perm {cs : List CommentData}
    (hnd : (cs.map (fun c => c.id)).Nodup)
    (hpar : ∀ c ∈ cs, ∀ pid, jsParentId c = some pid → pid ∈ cs.map (fun d => d.id))
    (hacyc : ∀ c ∈ cs, terminates cs c)
    {m : Store} {roots : List String} (h : organizeComments cs = some (m, roots))
    {fuel : Nat} (hfuel : cs.length ≤ fuel) :
    (flattenForest m fuel roots).Perm cs := by
  have hnc_all : ∀ c ∈ cs, ∀ k, 0 < k → iterParent cs k c ≠ some c :=
    fun c hc => no_cycle_of_terminates (hacyc c hc)
  rw [flattenForest_final_eq hnd h fuel]
  have hbig_nodup : (((rootIds cs).map (dfsSpec cs fuel)).flatten).Nodup := by
    rw [List.nodup_flatten]
    constructor
    · intro l' hl'
      obtain ⟨r, _, rfl⟩ := List.mem_map.mp hl'
      exact dfsSpec_nodup hnd hnc_all fuel r
    · rw [List.pairwise_map]
      refine List.Pairwise.imp_of_mem ?_ (rootIds_nodup hnd)
      intro r₁ r₂ hm₁ hm₂ hne x hx₁ hx₂
      exact hne (dfsSpec_root_eq hnd hm₁ hm₂ hx₁ hx₂)
  have hcs_nodup : cs.Nodup := List.Nodup.of_map _ hnd
  have hmem : ∀ x, x ∈ ((rootIds cs).map (dfsSpec cs fuel)).flatten ↔ x ∈ cs := by
    intro x
    constructor
    · intro hx
      obtain ⟨l', hl', hx⟩ := List.mem_flatten.mp hx
      obtain ⟨r, _, rfl⟩ := List.mem_map.mp hl'
      obtain ⟨j, _, hxcs, _⟩ := (mem_dfsSpec_iff hnd fuel r x).mp hx
      exact hxcs
    · intro hx
      obtain ⟨j, hj, r, hr, hroot⟩ := terminates_iff.mp (hacyc x hx)
      have hrmem : r ∈ cs := mem_of_iterParent hx hr
      have hrid : r.id ∈ rootIds cs := mem_rootIds.mpr ⟨r, hrmem, hroot, rfl⟩
      have hxr : x ∈ dfsSpec cs fuel r.id :=
        (mem_dfsSpec_iff hnd fuel r.id x).mpr
          ⟨j, lt_of_lt_of_le hj hfuel, hx, r, hr, rfl⟩
      exact List.mem_flatten.mpr ⟨_, List.mem_map.mpr ⟨r.id, hrid, rfl⟩, hxr⟩
  apply List.perm_of_nodup_nodup_toFinset_eq hbig_nodup hcs_nodup
  ext a
  simp only [List.mem_toFinset]
  exact hmem a

/-- C2, amended: for input collections with pairwise-distinct ids, a comment
whose `parentId` is present but matches no id of the collection appears
nowhere in the output forest: its id is neither in the root sequence nor in
any node's `replies`, and no record of the depth-first flattening (at any
fuel) is that comment. -/
theorem orphan_dropped {cs : List CommentData}
    (hnd : (cs.map (fun c => c.id)).Nodup)
    {c : CommentData} (hc : c ∈ cs) {pid : String}
    (hp : jsParentId c = some pid) (hmiss : pid ∉ cs.map (fun d => d.id))
    {m : Store} {roots : List String} (h : organizeComments cs = some (m, roots)) :
    c.id ∉ roots ∧
      (∀ k node, lookupStore m k = some node → c.id ∉ node.replies) ∧
      (∀ fuel x, x ∈ flattenForest m fuel roots → x ≠ c) := by
  have hfindpid : find? cs pid = none := by
    have : ¬ (find? cs pid).isSome := by
      rw [find?_isSome_iff]
      exact hmiss
    exact Option.not_isSome_iff_eq_none.mp this
  refine ⟨?_, ?_, ?_⟩
  · intro hroot
    rw [roots_final h] at hroot
    obtain ⟨p, hpmem, hppar, hpid⟩ := mem_rootIds.mp hroot
    have : p = c := unique_of_nodup_ids hnd hpmem hc hpid
    rw [this] at hppar
    rw [hppar] at hp
    cases hp
  · intro k node hlook
    rw [lookupStore_final hnd h] at hlook
    cases hf : find? cs k with
    | none => rw [hf] at hlook; cases hlook
    | some d =>
        rw [hf] at hlook
        have hrep : node.replies = childIds cs k := by
          have := Option.some.inj hlook
          rw [← this]
        rw [hrep]
        intro hin
        obtain ⟨e, hemem, hepar, heid⟩ := mem_childIds.mp hin
        have hec : e = c := unique_of_nodup_ids hnd hemem hc heid
        rw [hec] at hepar
        have hkeq : k = pid := by
          have h2 := hepar.symm.trans hp
          injection h2
        have hks : (find? cs k).isSome := by rw [hf]; rfl
        rw [find?_isSome_iff, hkeq] at hks
        exact hmiss hks
  · intro fuel x hx hxc
    subst hxc
    rw [flattenForest_final_eq hnd h fuel] at hx
    obtain ⟨l', hl', hx⟩ := List.mem_flatten.mp hx
    obtain ⟨r, hrmem, rfl⟩ := List.mem_map.mp hl'
    obtain ⟨j, _, _, y, hy, hyi⟩ := (mem_dfsSpec_iff hnd fuel r x).mp hx
    cases j with
    | zero =>
        simp only [iterParent, Option.some.injEq] at hy
        subst hy
        obtain ⟨p, hpmem, hppar, hpid⟩ := mem_rootIds.mp hrmem
        have : p = x := unique_of_nodup_ids hnd hpmem hc (hpid.trans hyi.symm)
        rw [this] at hppar
        rw [hppar] at hp
        cases hp
    | succ j =>
        have : iterParent cs (j + 1) x = none := by
          rw [Nat.add_comm j 1, iterParent_add]
          simp [iterParent, parentOf, hp, hfindpid]
        rw [this] at hy
        cases hy

/-- C3, amended: for input collections with pairwise-distinct ids, the root
sequence of `organizeComments` lists the ids of the parentless comments in
input order, and each stored node carries its own (unique) input record and,
as `replies`, the ids of that record's direct children in input order. -/
theorem organizeComments_order {cs : List CommentData}
    (hnd : (cs.map (fun c => c.id)).Nodup)
    {m : Store} {roots : List String} (h : organizeComments cs = some (m, roots)) :
    roots = (cs.filter (fun c => jsParentId c = none)).map (fun c => c.id) ∧
      ∀ k node, lookupStore m k = some node →
        node.data ∈ cs ∧ node.data.id = k ∧
          node.replies = (cs.filter (fun c => jsParentId c = some k)).map (fun c => c.id) := by
  refine ⟨roots_final h, ?_⟩
  intro k node hlook
  rw [lookupStore_final hnd h] at hlook
  cases hf : find? cs k with
  | none => rw [hf] at hlook; cases hlook
  | some d =>
      rw [hf] at hlook
      have hnode : node = ⟨d, childIds cs k⟩ := (Option.some.inj hlook).symm
      obtain ⟨hdmem, hdid⟩ := (find?_eq_some_of_nodup hnd).mp hf
      rw [hnode]
      exact ⟨hdmem, hdid, rfl⟩

/-- C10, amended: for input collections with pairwise-distinct ids, a comment
lying on a parent-reference cycle is attached inside the cycle — it is pushed
onto its parent's `replies` (onto its own `replies` when it is its own
parent) — and never onto the root sequence, so it appears nowhere in the
depth-first flattening of the output forest. -/
theorem cycle_comment_hidden {cs : List CommentData}
    (hnd : (cs.map (fun c => c.id)).Nodup)
    {c : CommentData} (hc : c ∈ cs)
    (hcyc : ∃ k, 0 < k ∧ iterParent cs k c = some c)
    {m : Store} {roots : List String} (h : organizeComments cs = some (m, roots)) :
    c.id ∉ roots ∧
      (∀ fuel x, x ∈ flattenForest m fuel roots → x ≠ c) ∧
      (∀ p, parentOf cs c = some p →
        ∀ node, lookupStore m p.id = some node → c.id ∈ node.replies) ∧
      (jsParentId c = some c.id →
        ∀ node, lookupStore m c.id = some node → c.id ∈ node.replies) := by
  obtain ⟨k, hk, hcy⟩ := hcyc
  have hpar_ne : jsParentId c ≠ none := by
    intro hnone
    rw [iterParent_root_none hnone hk] at hcy
    cases hcy
  have hattach : ∀ p, parentOf cs c = some p →
      ∀ node, lookupStore m p.id = some node → c.id ∈ node.replies := by
    intro p hpo node hlook
    cases hpid : jsParentId c with
    | none => exact absurd hpid hpar_ne
    | some pid =>
        have hfind : find? cs pid = some p := by
          unfold parentOf at hpo
          rw [hpid] at hpo
          simpa using hpo
        have hppid : p.id = pid := by simpa using List.find?_some hfind
        rw [lookupStore_final hnd h] at hlook
        cases hf : find? cs p.id with
        | none => rw [hf] at hlook; cases hlook
        | some d =>
            rw [hf] at hlook
            have hnode := (Option.some.inj hlook).symm
            rw [hnode]
            show c.id ∈ childIds cs p.id
            exact mem_childIds.mpr ⟨c, hc, by rw [hpid, hppid], rfl⟩
  refine ⟨?_, ?_, hattach, ?_⟩
  · intro hroot
    rw [roots_final h] at hroot
    obtain ⟨p, hpmem, hppar, hpid⟩ := mem_rootIds.mp hroot
    have : p = c := unique_of_nodup_ids hnd hpmem hc hpid
    rw [this] at hppar
    exact hpar_ne hppar
  · intro fuel x hx hxc
    subst hxc
    rw [flattenForest_final_eq hnd h fuel] at hx
    obtain ⟨l', hl', hx⟩ := List.mem_flatten.mp hx
    obtain ⟨r, hrmem, rfl⟩ := List.mem_map.mp hl'
    obtain ⟨j, _, _, y, hy, hyi⟩ := (mem_dfsSpec_iff hnd fuel r x).mp hx
    obtain ⟨p, hpmem, hppar, hpid⟩ := mem_rootIds.mp hrmem
    have hyp : y = p :=
      unique_of_nodup_ids hnd (mem_of_iterParent hc hy) hpmem (hyi.trans hpid.symm)
    subst hyp
    have hdead : iterParent cs (j + 1) x = none := by
      rw [iterParent_add, hy]
      simp [iterParent_root_none hppar (Nat.succ_pos 0)]
    have hsome := iterParent_cycle_isSome hk hcy (j + 1)
    rw [hdead] at hsome
    cases hsome
  · intro hself node hlook
    have hpo : parentOf cs c = some c := by
      unfold parentOf
      rw [hself]
      simp [(find?_eq_some_of_nodup hnd).mpr ⟨hc, rfl⟩]
    exact hattach c hpo node hlook

/-! ## Concrete fixtures, counterexamples and witnesses for the tree builder -/

/-- A single self-parenting comment: its `parentId` is present and equals the id
of a comment of the collection (itself). -/
def cexSelf : CommentData := ⟨"a", "self", "blog1", "user1", some "a", 0⟩

/-- C1 counterexample: on `[cexSelf]` every present `parentId` equals the id of
some comment of the collection (`cexSelf.parentId = some "a" = some cexSelf.id`),
yet the root sequence is empty and the depth-first flattening holds 0 records
instead of `n = 1`: the self-parenting comment is pushed onto its own `replies`
and never reached from the roots. -/
theorem organizeComments_forest_perm_cex :
    cexSelf.parentId = some cexSelf.id ∧
    organizeComments [cexSelf] = some ([("a", ⟨cexSelf, ["a"]⟩)], []) ∧
    flattenForest [("a", ⟨cexSelf, ["a"]⟩)] ([cexSelf].length) [] = [] ∧
    [cexSelf].length = 1 :=
  ⟨rfl, rfl, rfl, rfl⟩

/-- A four-comment fixture: roots `"1"`, `"2"` and replies `"1a"`, `"1b"` of
`"1"`, in input order. -/
def demoForest : List CommentData :=
  [⟨"1", "r1", "blog1", "u1", none, 0⟩, ⟨"2", "r2", "blog1", "u2", none, 1⟩,
   ⟨"1a", "c1", "blog1", "u3", some "1", 2⟩, ⟨"1b", "c2", "blog1", "u4", some "1", 3⟩]

/-- The store and root sequence `organizeComments` produces on `demoForest`. -/
def demoForestRes : Store × List String := (organizeComments demoForest).getD ([], [])

/-- Witness for C1's theorem at `demoForest`. -/
theorem organizeComments_forest_perm_witness :
    (demoForest.map (fun c => c.id)).Nodup ∧
    (∀ c ∈ demoForest, ∀ pid, c.parentId = some pid →
      pid ∈ demoForest.map (fun d => d.id)) ∧
    (∀ c ∈ demoForest, terminates demoForest c) ∧
    (flattenForest demoForestRes.1 demoForest.length demoForestRes.2).Perm demoForest :=
  ⟨by decide, by decide, by decide,
    @organizeComments_forest_perm demoForest (by decide) (by decide) (by decide)
      demoForestRes.1 demoForestRes.2 (by rfl) demoForest.length (le_refl _)⟩

/-- Two comments sharing the id `"a"`: a parentless one and a later orphan
(`parentId` = `"missing"`). -/
def cexOrphanA : CommentData := ⟨"a", "first", "blog1", "u1", none, 0⟩

/-- The orphan record of the C2 counterexample. -/
def cexOrphanB : CommentData := ⟨"a", "second", "blog1", "u1", some "missing", 1⟩

/-- C2 counterexample: with the duplicate-id input `[cexOrphanA, cexOrphanB]`,
the orphan comment `cexOrphanB` (whose `parentId` `"missing"` matches no id of
the collection) IS promoted to the root position: the map holds the
last-set copy per id, so the parentless first comment pushes the orphan's
node, and the flattening contains the orphan record. -/
theorem orphan_dropped_cex :
    cexOrphanB.parentId = some "missing" ∧
    "missing" ∉ ([cexOrphanA, cexOrphanB].map (fun d => d.id)) ∧
    organizeComments [cexOrphanA, cexOrphanB] =
      some ([("a", ⟨cexOrphanB, []⟩), ("a", ⟨cexOrphanA, []⟩)], ["a"]) ∧
    flattenForest [("a", ⟨cexOrphanB, []⟩), ("a", ⟨cexOrphanA, []⟩)] 2 ["a"] =
      [cexOrphanB] :=
  ⟨rfl, by decide, rfl, rfl⟩

/-- The record of the spec's explicit orphan fixture `[{id:"a", parentId:"missing"}]`. -/
def demoOrphanRec : CommentData := ⟨"a", "lonely", "blog1", "u1", some "missing", 0⟩

/-- The spec's explicit orphan fixture as a collection. -/
def demoOrphan : List CommentData := [demoOrphanRec]

/-- The store and root sequence `organizeComments` produces on `demoOrphan`. -/
def demoOrphanRes : Store × List String := (organizeComments demoOrphan).getD ([], [])

/-- Witness for C2's amended theorem at the spec's own fixture: the orphan's id
is not a root (indeed the root sequence is empty). -/
theorem orphan_dropped_witness :
    (demoOrphan.map (fun c => c.id)).Nodup ∧
    demoOrphanRec ∈ demoOrphan ∧
    demoOrphanRec.parentId = some "missing" ∧
    "missing" ∉ demoOrphan.map (fun d => d.id) ∧
    demoOrphanRes.2 = [] ∧
    demoOrphanRec.id ∉ demoOrphanRes.2 :=
  ⟨by decide, by decide, rfl, by decide, rfl,
    (@orphan_dropped demoOrphan (by decide) demoOrphanRec (by decide) "missing" rfl
      (by decide) demoOrphanRes.1 demoOrphanRes.2 (by rfl)).1⟩

/-- Duplicate-id parentless records with different payloads. -/
def cexDupX : CommentData := ⟨"a", "x", "blog1", "u1", none, 0⟩

/-- The second record sharing id `"a"`. -/
def cexDupY : CommentData := ⟨"a", "y", "blog1", "u2", none, 1⟩

/-- C3 counterexample: on `[cexDupX, cexDupY]` the root sequence resolves to the
records `[cexDupY, cexDupY]` — it does not list the parentless comments
`[cexDupX, cexDupY]` in input order, because both root pushes reference the
single (last-set) map node for id `"a"`. -/
theorem organizeComments_order_cex :
    organizeComments [cexDupX, cexDupY] =
      some ([("a", ⟨cexDupY, []⟩), ("a", ⟨cexDupX, []⟩)], ["a", "a"]) ∧
    (["a", "a"].filterMap
        (fun i => (lookupStore [("a", ⟨cexDupY, []⟩), ("a", ⟨cexDupX, []⟩)] i).map
          (fun n => n.data))) = [cexDupY, cexDupY] ∧
    ([cexDupX, cexDupY].filter (fun c => c.parentId = none)) = [cexDupX, cexDupY] ∧
    cexDupX ≠ cexDupY :=
  ⟨rfl, rfl, rfl, by decide⟩

/-- Witness for C3's amended theorem at `demoForest`: the root id sequence is
exactly the ids of the parentless comments in input order. -/
theorem organizeComments_order_witness :
    (demoForest.map (fun c => c.id)).Nodup ∧
    demoForestRes.2 =
      (demoForest.filter (fun c => c.parentId = none)).map (fun c => c.id) ∧
    demoForestRes.2 = ["1", "2"] :=
  ⟨by decide,
    (@organizeComments_order demoForest (by decide)
      demoForestRes.1 demoForestRes.2 (by rfl)).1, rfl⟩

/-- A parentless record and a self-parenting record sharing the id `"a"`. -/
def cexCycA : CommentData := ⟨"a", "plain", "blog1", "u1", none, 0⟩

/-- The self-parenting record of the C10 counterexample. -/
def cexCycB : CommentData := ⟨"a", "selfparent", "blog1", "u2", some "a", 1⟩

/-- C10 counterexample: with the duplicate-id input `[cexCycA, cexCycB]` the
self-parenting comment `cexCycB` DOES appear in the depth-first flattening
(twice, at fuel 2): the parentless first comment promotes the last-set map
node — which carries the self-parenting record — to the root sequence. -/
theorem cycle_comment_hidden_cex :
    cexCycB.parentId = some cexCycB.id ∧
    organizeComments [cexCycA, cexCycB] =
      some ([("a", ⟨cexCycB, ["a"]⟩), ("a", ⟨cexCycA, []⟩)], ["a"]) ∧
    cexCycB ∈ flattenForest [("a", ⟨cexCycB, ["a"]⟩), ("a", ⟨cexCycA, []⟩)] 2 ["a"] :=
  ⟨rfl, rfl, by decide⟩

/-- The first member of the C10 witness's two-comment parent cycle. -/
def demoCycleA : CommentData := ⟨"a", "c1", "blog1", "u1", some "b", 0⟩

/-- A two-comment parent cycle (`"a"` ↔ `"b"`) beside a normal root. -/
def demoCycle : List CommentData :=
  [demoCycleA, ⟨"b", "c2", "blog1", "u2", some "a", 1⟩,
   ⟨"r", "c3", "blog1", "u3", none, 2⟩]

/-- The store and root sequence `organizeComments` produces on `demoCycle`. -/
def demoCycleRes : Store × List String := (organizeComments demoCycle).getD ([], [])

/-- Witness for C10's amended theorem on the two-cycle fixture: the cycle
comment `"a"` is not in the root sequence (which is exactly `["r"]`). -/
theorem cycle_comment_hidden_witness :
    (demoCycle.map (fun c => c.id)).Nodup ∧
    demoCycleA ∈ demoCycle ∧
    iterParent demoCycle 2 demoCycleA = some demoCycleA ∧
    demoCycleRes.2 = ["r"] ∧
    demoCycleA.id ∉ demoCycleRes.2 :=
  ⟨by decide, by decide, by rfl, rfl,
    (@cycle_comment_hidden demoCycle (by decide) demoCycleA (by decide)
      ⟨2, Nat.succ_pos 1, by rfl⟩ demoCycleRes.1 demoCycleRes.2 (by rfl)).1⟩

/-! # The filter/query state synchronizer -/

/-- `BlogFilters` (`src/types`): every field is optional; `none` models an
absent/`undefined` field.  `sortBy`/`sortOrder`/`status` are string enums. -/
structure BlogFilters where
  search : Option String
  categories : Option (List String)
  tags : Option (List String)
  author : Option String
  status : Option String
  sortBy : Option String
  sortOrder : Option String
  limit : Option Int
  offset : Option Int
deriving DecidableEq, Repr

/-- A `Partial<BlogFilters>` update object: a field is `none` when the key is
absent from the update, and `some v` when the key is present with value `v` —
including `some none` for a key explicitly set to `undefined`, which JavaScript
spread treats as present and overriding (the view uses this in
`applyFilters({search: undefined})`). -/
structure BlogFiltersPatch where
  search : Option (Option String) := none
  categories : Option (Option (List String)) := none
  tags : Option (Option (List String)) := none
  author : Option (Option String) := none
  status : Option (Option String) := none
  sortBy : Option (Option String) := none
  sortOrder : Option (Option String) := none
  limit : Option (Option Int) := none
  offset : Option (Option Int) := none
deriving DecidableEq, Repr

/-- The spread merge `{ ...filters, ...newFilters }`. -/
def mergeFilters (f : BlogFilters) (p : BlogFiltersPatch) : BlogFilters :=
  ⟨p.search.getD f.search, p.categories.getD f.categories, p.tags.getD f.tags,
   p.author.getD f.author, p.status.getD f.status, p.sortBy.getD f.sortBy,
   p.sortOrder.getD f.sortOrder, p.limit.getD f.limit, p.offset.getD f.offset⟩

/-- JavaScript truthiness of an optional string: present and non-empty. -/
def truthyStr (s : Option String) : Bool :=
  match s with
  | some v => v ≠ ""
  | none => false

/-- The URL derivation inside `applyFilters` (blog-list view): `search` when
truthy, the first selected category when the list is non-empty, and `sort` /
`order` whenever `sortBy`/`sortOrder` are truthy — in that insertion order. -/
def urlParamsOf (f : BlogFilters) : List (String × String) :=
  (match f.search with
    | some s => if s = "" then [] else [("search", s)]
    | none => [])
  ++ (match f.categories with
    | some (c :: _) => [("category", c)]
    | _ => [])
  ++ (match f.sortBy with
    | some s => if s = "" then [] else [("sort", s)]
    | none => [])
  ++ (match f.sortOrder with
    | some s => if s = "" then [] else [("order", s)]
    | none => [])

/-- `applyFilters` from the blog-list view: merge the partial update over the
current filters, force `offset: 0`, and re-derive the URL parameters from the
result.  Returns the new authoritative filter and the URL parameter list. -/
def applyFilters (f : BlogFilters) (p : BlogFiltersPatch) :
    BlogFilters × List (String × String) :=
  let updated : BlogFilters := { mergeFilters f p with offset := some 0 }
  (updated, urlParamsOf updated)

/-- `filters.limit || 12`: JavaScript `||` falls back on both `undefined` and `0`. -/
def effLimit (f : BlogFilters) : Int :=
  match f.limit with
  | some l => if l = 0 then 12 else l
  | none => 12

/-- `handlePageChange` from the blog-list view: set
`offset = (page - 1) * (filters.limit || 12)` and keep every other field. -/
def handlePageChange (f : BlogFilters) (page : Int) : BlogFilters :=
  { f with offset := some ((page - 1) * effLimit f) }

/-- Modelled from the spec: the display-only page number `offset / limit + 1`
(§3 invariant; the computation itself lives in `lib/blog`, outside the provided
source).  The dividing limit carries the same `limit || 12` fallback the view
itself uses, since the spec's formula presumes a defined limit. -/
def displayPage (f : BlogFilters) : Int :=
  f.offset.getD 0 / effLimit f + 1

/-- The filter object the blog-list view installs on mount with no URL
parameters present. -/
def mountListFilters : BlogFilters :=
  ⟨none, none, none, none, some "published", some "createdAt", some "desc",
   some 12, some 0⟩

/-- The category toggle of the keyword-search view (`BlogDetail.tsx`): an
already-selected slug is removed; otherwise the whole selection is replaced by
the single toggled slug. -/
def handleCategoryToggleSearch (selected : List String) (slug : String) : List String :=
  if slug ∈ selected then selected.filter (fun c => c ≠ slug) else [slug]

/-- The category toggle of the blog-list view: an already-selected slug is
removed; otherwise the slug is appended to the selection. -/
def handleCategoryToggleList (selected : List String) (slug : String) : List String :=
  if slug ∈ selected then selected.filter (fun c => c ≠ slug) else selected ++ [slug]

/-! ## Claim theorems for the filter synchronizer -/

/-- C4: `applyFilters` always produces `offset = 0`, whatever the prior offset
(and even when the patch itself carries an offset), while every other field is
the spread merge of the patch over the current filters. -/
theorem applyFilters_resets_offset (f : BlogFilters) (p : BlogFiltersPatch) :
    (applyFilters f p).1.offset = some 0 ∧
    (applyFilters f p).1.search = (mergeFilters f p).search ∧
    (applyFilters f p).1.categories = (mergeFilters f p).categories ∧
    (applyFilters f p).1.tags = (mergeFilters f p).tags ∧
    (applyFilters f p).1.author = (mergeFilters f p).author ∧
    (applyFilters f p).1.status = (mergeFilters f p).status ∧
    (applyFilters f p).1.sortBy = (mergeFilters f p).sortBy ∧
    (applyFilters f p).1.sortOrder = (mergeFilters f p).sortOrder ∧
    (applyFilters f p).1.limit = (mergeFilters f p).limit :=
  ⟨rfl, rfl, rfl, rfl, rfl, rfl, rfl, rfl, rfl⟩

theorem effLimit_ne_zero (f : BlogFilters) : effLimit f ≠ 0 := by
  unfold effLimit
  cases f.limit with
  | none => decide
  | some l =>
      by_cases hl : l = 0
      · simp [hl]
      · simp [hl]

/-- C5: `handlePageChange page` sets `offset = (page - 1) * limit` with the
current limit (12 when unset), leaves every other field unchanged, and the
display computation `offset / limit + 1` applied to the result recovers
`page`; concretely, page 3 at limit 12 yields offset 24. -/
theorem handlePageChange_page (f : BlogFilters) (page : Int) :
    (handlePageChange f page).offset = some ((page - 1) * effLimit f) ∧
    (handlePageChange f page).search = f.search ∧
    (handlePageChange f page).categories = f.categories ∧
    (handlePageChange f page).tags = f.tags ∧
    (handlePageChange f page).author = f.author ∧
    (handlePageChange f page).status = f.status ∧
    (handlePageChange f page).sortBy = f.sortBy ∧
    (handlePageChange f page).sortOrder = f.sortOrder ∧
    (handlePageChange f page).limit = f.limit ∧
    displayPage (handlePageChange f page) = page ∧
    (handlePageChange mountListFilters 3).offset = some 24 := by
  refine ⟨rfl, rfl, rfl, rfl, rfl, rfl, rfl, rfl, rfl, ?_, rfl⟩
  unfold displayPage
  have hlim : effLimit (handlePageChange f page) = effLimit f := rfl
  rw [hlim]
  have hoff : (handlePageChange f page).offset.getD 0 = (page - 1) * effLimit f := rfl
  rw [hoff]
  rw [Int.mul_ediv_cancel _ (effLimit_ne_zero f)]
  omega

/-- Characterization of the URL parameter list: a pair is present exactly when
its field is set and truthy in the given filter object — the default values
`createdAt`/`desc` are NOT omitted. -/
theorem mem_urlParamsOf (u : BlogFilters) (key val : String) :
    (key, val) ∈ urlParamsOf u ↔
      ((key = "search" ∧ u.search = some val ∧ val ≠ "") ∨
       (key = "category" ∧ ∃ rest, u.categories = some (val :: rest)) ∨
       (key = "sort" ∧ u.sortBy = some val ∧ val ≠ "") ∨
       (key = "order" ∧ u.sortOrder = some val ∧ val ≠ "")) := by
  obtain ⟨s, cat, tg, au, st, sb, so, li, of⟩ := u
  unfold urlParamsOf
  rcases s with _ | s <;> rcases cat with _ | (_ | ⟨c, rest⟩) <;>
    rcases sb with _ | sb <;> rcases so with _ | so <;>
    simp only [List.mem_append, List.mem_singleton, List.not_mem_nil, Prod.mk.injEq] <;>
    (try split_ifs) <;> (try simp_all) <;> aesop

/-- C6, amended: after `applyFilters`, the derived URL query contains `search`
iff the resulting search text is set and non-empty, `category` (the first
selected category) iff the category list is set and non-empty, and `sort` /
`order` iff `sortBy`/`sortOrder` are set and non-empty — including when they
equal the defaults `createdAt`/`desc`, which are not omitted. -/
theorem applyFilters_url (f : BlogFilters) (p : BlogFiltersPatch) (key val : String) :
    (key, val) ∈ (applyFilters f p).2 ↔
      ((key = "search" ∧ (applyFilters f p).1.search = some val ∧ val ≠ "") ∨
       (key = "category" ∧ ∃ rest, (applyFilters f p).1.categories = some (val :: rest)) ∨
       (key = "sort" ∧ (applyFilters f p).1.sortBy = some val ∧ val ≠ "") ∨
       (key = "order" ∧ (applyFilters f p).1.sortOrder = some val ∧ val ≠ "")) :=
  mem_urlParamsOf ((applyFilters f p).1) key val

/-- C6 counterexample: with the mount-time filter state, whose sort fields hold
exactly the defaults `createdAt`/`desc`, `applyFilters({})` still emits both
`sort=createdAt` and `order=desc` into the URL — the defaults are not omitted
as the claim states. -/
theorem applyFilters_url_cex :
    mountListFilters.sortBy = some "createdAt" ∧
    mountListFilters.sortOrder = some "desc" ∧
    ("sort", "createdAt") ∈ (applyFilters mountListFilters {}).2 ∧
    ("order", "desc") ∈ (applyFilters mountListFilters {}).2 :=
  ⟨rfl, rfl, by decide, by decide⟩

/-- C7: the keyword-search view's toggle keeps at most one category selected,
replacing the prior selection with the newly toggled slug (so toggling `slug`
then a different `slug₂` leaves exactly `[slug₂]`), and deselecting an
already-selected slug; the blog-list view's toggle instead appends an absent
slug and removes a present one. -/
theorem categoryToggle_single (selected : List String) (slug slug₂ : String) :
    (slug ∉ selected → handleCategoryToggleSearch selected slug = [slug]) ∧
    (slug ∈ selected → slug ∉ handleCategoryToggleSearch selected slug) ∧
    (selected.length ≤ 1 → (handleCategoryToggleSearch selected slug).length ≤ 1) ∧
    (selected.length ≤ 1 → slug ≠ slug₂ →
      handleCategoryToggleSearch (handleCategoryToggleSearch selected slug) slug₂
        = [slug₂]) ∧
    (slug ∉ selected → handleCategoryToggleList selected slug = selected ++ [slug]) ∧
    (slug ∈ selected → handleCategoryToggleList selected slug
      = selected.filter (fun c => c ≠ slug)) := by
  refine ⟨?_, ?_, ?_, ?_, ?_, ?_⟩
  · intro h
    simp [handleCategoryToggleSearch, h]
  · intro h
    simp [handleCategoryToggleSearch, h]
  · intro hlen
    unfold handleCategoryToggleSearch
    split_ifs with h
    · exact le_trans (List.length_filter_le _ _) hlen
    · simp
  · intro hlen hne
    unfold handleCategoryToggleSearch
    split_ifs with h h2 h2
    · rcases selected with _ | ⟨x, _ | ⟨y, rest⟩⟩
      · cases h
      · have hx : slug = x := by simpa using h
        rw [← hx] at h2
        simp at h2
      · simp at hlen
    · rfl
    · simp at h2
      exact absurd h2.symm hne
    · rfl
  · intro h
    simp [handleCategoryToggleList, h]
  · intro h
    simp [handleCategoryToggleList, h]

/-- Witness for C7 at the claim's own example: toggling `"tech"` then
`"science"` from an empty search-view selection leaves exactly `["science"]`,
while the blog-list toggle appends instead. -/
theorem categoryToggle_single_witness :
    handleCategoryToggleSearch (handleCategoryToggleSearch [] "tech") "science"
      = ["science"] ∧
    handleCategoryToggleList ["tech"] "science" = ["tech", "science"] :=
  ⟨(categoryToggle_single [] "tech" "science").2.2.2.1 (by decide) (by decide),
    (categoryToggle_single ["tech"] "science" "x").2.2.2.2.1 (by decide)⟩

/-! # Heap-level model of the tree builder, for the no-mutation claim

The id-keyed model above cannot even express mutation of the caller's records,
so the copy-on-build guarantee (C8) is stated against an explicit object heap:
comment objects live at numeric addresses, the input is a list of addresses of
caller-owned objects, and `{ ...comment, replies: [] }` allocates a fresh
object at the end of the heap. -/

/-- A comment object on the heap: the scalar fields together with the `replies`
array, which holds heap addresses of other comment objects. -/
structure CommentObj where
  data : CommentData
  replies : List Nat
deriving DecidableEq, Repr

/-- The object heap; an address is an index into it. -/
abbrev Heap := List CommentObj

/-- The id-to-address `commentMap` at heap level (`set` conses, lookup takes the
most recently set entry). -/
def lookupAddr (m : List (String × Nat)) (k : String) : Option Nat :=
  (m.find? (fun e => e.1 = k)).map (fun e => e.2)

/-- First pass at heap level: for each input address, read the caller's object,
allocate the shallow copy `{ ...comment, replies: [] }` at a fresh address
(the current heap end) and map the comment's id to that address. -/
def pass1H : Heap → List (String × Nat) → List Nat → Option (Heap × List (String × Nat))
  | h, m, [] => some (h, m)
  | h, m, a :: rest =>
      match h.get? a with
      | none => none
      | some obj => pass1H (h ++ [⟨obj.data, []⟩]) ((obj.data.id, h.length) :: m) rest

/-- `parent.replies.push(child)` at heap level: rewrite the object at address
`a` with `child` appended to its `replies`. -/
def pushReplyH (h : Heap) (a : Nat) (child : Nat) : Heap :=
  match h.get? a with
  | none => h
  | some o => h.set a ⟨o.data, o.replies ++ [child]⟩

/-- Second pass at heap level: re-read each input object, fetch its map node's
address by id (the non-null `!` modelled as `Option` failure), and push that
node onto its parent's `replies` (when the parent id is mapped) or onto the
root sequence (when the comment is parentless). -/
def pass2H : Heap → List (String × Nat) → List Nat → List Nat → Option (Heap × List Nat)
  | h, _, roots, [] => some (h, roots)
  | h, m, roots, a :: rest =>
      match h.get? a with
      | none => none
      | some c =>
          match lookupAddr m c.data.id with
          | none => none
          | some na =>
              match jsParentId c.data with
              | some pid =>
                  match lookupAddr m pid with
                  | some pa => pass2H (pushReplyH h pa na) m roots rest
                  | none => pass2H h m roots rest
              | none => pass2H h m (roots ++ [na]) rest

/-- `organizeComments` at heap level: run both passes over the caller-owned
objects named by `inp` and return the final heap with the root addresses. -/
def organizeCommentsH (h₀ : Heap) (inp : List Nat) : Option (Heap × List Nat) :=
  match pass1H h₀ [] inp with
  | none => none
  | some (h₁, m) => pass2H h₁ m [] inp

theorem pass1H_extends :
    ∀ (inp : List Nat) (h : Heap) (m : List (String × Nat)) {h₁ : Heap}
      {m₁ : List (String × Nat)},
      pass1H h m inp = some (h₁, m₁) → ∃ ext, h₁ = h ++ ext := by
  intro inp
  induction inp with
  | nil =>
      intro h m h₁ m₁ hp
      simp only [pass1H, Option.some.injEq, Prod.mk.injEq] at hp
      exact ⟨[], by rw [← hp.1]; simp⟩
  | cons a rest ih =>
      intro h m h₁ m₁ hp
      simp only [pass1H] at hp
      cases hg : h.get? a with
      | none => rw [hg] at hp; cases hp
      | some obj =>
          rw [hg] at hp
          obtain ⟨ext, hext⟩ := ih _ _ hp
          exact ⟨⟨obj.data, []⟩ :: ext, by rw [hext]; simp⟩

theorem pass1H_addr_ge :
    ∀ (inp : List Nat) (h : Heap) (m : List (String × Nat)) {h₁ : Heap}
      {m₁ : List (String × Nat)},
      pass1H h m inp = some (h₁, m₁) → ∀ e ∈ m₁, e ∈ m ∨ h.length ≤ e.2 := by
  intro inp
  induction inp with
  | nil =>
      intro h m h₁ m₁ hp e he
      simp only [pass1H, Option.some.injEq, Prod.mk.injEq] at hp
      rw [← hp.2] at he
      exact Or.inl he
  | cons a rest ih =>
      intro h m h₁ m₁ hp e he
      simp only [pass1H] at hp
      cases hg : h.get? a with
      | none => rw [hg] at hp; cases hp
      | some obj =>
          rw [hg] at hp
          rcases ih _ _ hp e he with h' | h'
          · rcases List.mem_cons.mp h' with rfl | h''
            · exact Or.inr (le_refl _)
            · exact Or.inl h''
          · refine Or.inr (le_trans ?_ h')
            simp

theorem pushReplyH_get?_ne {h : Heap} {a child i : Nat} (hia : i ≠ a) :
    (pushReplyH h a child).get? i = h.get? i := by
  unfold pushReplyH
  cases h.get? a with
  | none => rfl
  | some o => exact List.get?_set_ne _ _ (Ne.symm hia)

theorem lookupAddr_mem {m : List (String × Nat)} {k : String} {a : Nat}
    (h : lookupAddr m k = some a) : ∃ e ∈ m, e.2 = a := by
  unfold lookupAddr at h
  cases hf : m.find? (fun e => e.1 = k) with
  | none => rw [hf] at h; cases h
  | some e =>
      rw [hf] at h
      exact ⟨e, List.mem_of_find?_eq_some hf, by simpa using h⟩

theorem pass2H_frame :
    ∀ (inp : List Nat) (h : Heap) (m : List (String × Nat)) (roots : List Nat)
      (n : Nat), (∀ e ∈ m, n ≤ e.2) →
      ∀ {h₂ : Heap} {r₂ : List Nat}, pass2H h m roots inp = some (h₂, r₂) →
      ∀ i, i < n → h₂.get? i = h.get? i := by
  intro inp
  induction inp with
  | nil =>
      intro h m roots n hm h₂ r₂ hp i hi
      simp only [pass2H, Option.some.injEq, Prod.mk.injEq] at hp
      rw [← hp.1]
  | cons a rest ih =>
      intro h m roots n hm h₂ r₂ hp i hi
      simp only [pass2H] at hp
      split at hp
      · cases hp
      · split at hp
        · cases hp
        · split at hp
          · split at hp
            next pa hpa =>
              have hple : n ≤ pa := by
                obtain ⟨e, he, rfl⟩ := lookupAddr_mem hpa
                exact hm e he
              have hrec := ih _ m roots n hm hp i hi
              rw [hrec]
              exact pushReplyH_get?_ne (by omega)
            next hpa =>
              exact ih h m roots n hm hp i hi
          · exact ih h m _ n hm hp i hi

/-- C8: the tree builder never mutates its caller-owned input.  Every
caller-owned heap cell (any address below the initial heap size, which covers
all input records) is bit-identical after `organizeCommentsH`: pass one only
allocates fresh copies at the heap end, and pass two writes `replies` only
through map addresses, which all point at those fresh copies. -/
theorem organizeComments_no_mutation {h₀ : Heap} {inp : List Nat} {h₂ : Heap}
    {roots : List Nat} (h : organizeCommentsH h₀ inp = some (h₂, roots)) :
    ∀ i, i < h₀.length → h₂.get? i = h₀.get? i := by
  intro i hi
  unfold organizeCommentsH at h
  cases hp1 : pass1H h₀ [] inp with
  | none => rw [hp1] at h; cases h
  | some p =>
      obtain ⟨h₁, m⟩ := p
      rw [hp1] at h
      have hm : ∀ e ∈ m, h₀.length ≤ e.2 := by
        intro e he
        rcases pass1H_addr_ge inp h₀ [] hp1 e he with h' | h'
        · cases h'
        · exact h'
      have h2i := pass2H_frame inp h₁ m [] h₀.length hm h i hi
      obtain ⟨ext, rfl⟩ := pass1H_extends inp h₀ [] hp1
      rw [h2i, List.get?_append hi]

/-- A two-object caller heap: a root comment and a reply to it. -/
def demoHeap : Heap :=
  [⟨⟨"r", "root", "blog1", "u1", none, 0⟩, []⟩,
   ⟨⟨"c", "child", "blog1", "u2", some "r", 1⟩, []⟩]

/-- The heap and root addresses `organizeCommentsH` produces on `demoHeap`. -/
def demoHeapRes : Heap × List Nat := (organizeCommentsH demoHeap [0, 1]).getD ([], [])

/-- Witness for C8: on the two-object heap, both caller-owned cells are
unchanged after the build (the fresh copies live at addresses 2 and 3). -/
theorem organizeComments_no_mutation_witness :
    organizeCommentsH demoHeap [0, 1] = some (demoHeapRes.1, demoHeapRes.2) ∧
    (0 : Nat) < demoHeap.length ∧
    demoHeapRes.1.get? 0 = demoHeap.get? 0 ∧
    demoHeapRes.1.get? 1 = demoHeap.get? 1 :=
  ⟨by rfl, by decide,
    @organizeComments_no_mutation demoHeap [0, 1] demoHeapRes.1 demoHeapRes.2
      (by rfl) 0 (by decide),
    @organizeComments_no_mutation demoHeap [0, 1] demoHeapRes.1 demoHeapRes.2
      (by rfl) 1 (by decide)⟩

end BlogApp
